import Mathlib

/-!
Verification of the context-tree and token-budget allocator of `mentat`
(`mentat/code_context.py`), against its natural-language specification.

The tree module (`context_tree`), the diff collaborator (`diff_context`) and
the ctags probe (`code_map`) are external to the verified source file; their
interfaces are modelled from the spec where indicated.  Everything in
`code_context.py` itself (`_set_include_paths`, `_set_diff_annotations`,
`_set_code_map`, `CodeContext.refresh`, `CodeContext.add_path`) is translated
directly from the source.
-/

/-- Per-node effective settings (spec §3 `NodeSettings`).  The Python key
`include` is called `incl` here because `include` is a Lean keyword. -/
structure NodeSettings where
  incl : Bool
  diff : Bool
  code_map : Bool
  include_signature : Bool
deriving DecidableEq

/-- A partial settings update: the dict argument of `update_settings`.
`none` means the key is absent from the dict. -/
structure SettingsUpdate where
  incl : Option Bool
  diff : Option Bool
  code_map : Option Bool
  include_signature : Option Bool
deriving DecidableEq

/-- Merge a partial update into a settings record, overwriting only the
given keys (spec §4.2). -/
def applySettings (s : NodeSettings) (u : SettingsUpdate) : NodeSettings :=
  { incl := u.incl.getD s.incl
    diff := u.diff.getD s.diff
    code_map := u.code_map.getD s.code_map
    include_signature := u.include_signature.getD s.include_signature }

/-- A per-line diff note: (line-range, text) as in spec §3. -/
abbrev DiffNote := Nat × Nat × String

/-- The context tree (spec §3): `FileNode` leaves and `DirectoryNode`
internal nodes.  Node identity is the path; we store the final path segment
as `name` and identify a node by the list of segments from the root.

Modelled from the spec: the token-counting collaborator is external
(`count(text, model) -> integer`); a file node therefore carries its three
possible token costs as data: `raw` (content only, `code_map` off),
`raw + mapNoSig` (code map, names only) and `raw + mapSig` (code map with
full signatures).  Directories never contribute tokens of their own
(spec §3, TokenCountCache invariant). -/
inductive ContextNode where
  | file (name : String) (raw mapNoSig mapSig : Nat) (node_settings : NodeSettings)
      (diff_annotations : List DiffNote)
  | dir (name : String) (node_settings : NodeSettings) (children : List ContextNode)

def ContextNode.name : ContextNode → String
  | .file nm _ _ _ _ _ => nm
  | .dir nm _ _ => nm

def ContextNode.node_settings : ContextNode → NodeSettings
  | .file _ _ _ _ s _ => s
  | .dir _ s _ => s

def ContextNode.isFile : ContextNode → Bool
  | .file _ _ _ _ _ _ => true
  | .dir _ _ _ => false

/-- The diff notes currently attached to a node (empty for directories). -/
def ContextNode.notes : ContextNode → List DiffNote
  | .file _ _ _ _ _ an => an
  | .dir _ _ _ => []

/-- Modelled from the spec: `node.count_tokens(model)` non-recursively — the
token cost of this node's own serialized form under its current settings.
An excluded node contributes nothing (spec §3: the recursive count is the
sum of included descendants); a directory contributes nothing itself. -/
def tokensOwn : ContextNode → Nat
  | .file _ raw mapNoSig mapSig s _ =>
      if s.incl then
        raw + (if s.code_map then (if s.include_signature then mapSig else mapNoSig) else 0)
      else 0
  | .dir _ _ _ => 0

mutual
/-- `node.update_settings(u, recursive)` (spec §4.2): merge the partial
update into the node's settings and, if `recursive`, into every descendant. -/
def update_settings (u : SettingsUpdate) (recursive : Bool) : ContextNode → ContextNode
  | .file nm r a b s an => .file nm r a b (applySettings s u) an
  | .dir nm s cs => .dir nm (applySettings s u) (if recursive then updateAll u cs else cs)
def updateAll (u : SettingsUpdate) : List ContextNode → List ContextNode
  | [] => []
  | c :: cs => update_settings u true c :: updateAll u cs
end

mutual
/-- `node.count_tokens(model, recursive=True)`: own cost plus the recursive
cost of all children. -/
def tokensRec : ContextNode → Nat
  | .file nm r a b s an => tokensOwn (.file nm r a b s an)
  | .dir nm s cs => tokensOwn (.dir nm s cs) + tokensRecList cs
def tokensRecList : List ContextNode → Nat
  | [] => 0
  | c :: cs => tokensRec c + tokensRecList cs
end

/-- `node.count_tokens(model, recursive)` as called by the source; the model
identifier is threaded through but the external tokenizer is abstracted into
the per-node cost data. -/
def count_tokens (n : ContextNode) (model : String) (recursive : Bool) : Nat :=
  if recursive then tokensRec n else tokensOwn n

/-- The data of one node without its children: used to state theorems about
the pre-order sequence of nodes. -/
structure NodeRec where
  isFile : Bool
  raw : Nat
  mapNoSig : Nat
  mapSig : Nat
  node_settings : NodeSettings
deriving DecidableEq

def toRec : ContextNode → NodeRec
  | .file _ r a b s _ => ⟨true, r, a, b, s⟩
  | .dir _ s _ => ⟨false, 0, 0, 0, s⟩

/-- Own token cost of a node record (mirrors `tokensOwn`). -/
def tokensOwnR (r : NodeRec) : Nat :=
  if r.isFile then
    if r.node_settings.incl then
      r.raw + (if r.node_settings.code_map then
        (if r.node_settings.include_signature then r.mapSig else r.mapNoSig) else 0)
    else 0
  else 0

mutual
/-- `iter_nodes()` (spec §4.1): the pre-order sequence of nodes, with each
node abstracted to its own data. -/
def flatten : ContextNode → List NodeRec
  | .file nm r a b s an => [toRec (.file nm r a b s an)]
  | .dir nm s cs => toRec (.dir nm s cs) :: flattenList cs
def flattenList : List ContextNode → List NodeRec
  | [] => []
  | c :: cs => flatten c ++ flattenList cs
end

/-- First child with the given path segment (dict lookup in `children`). -/
def findNamed (seg : String) : List ContextNode → Option ContextNode
  | [] => none
  | c :: cs => if c.name = seg then some c else findNamed seg cs

/-- Replace the first child with the given path segment. -/
def modifyNamed (seg : String) (g : ContextNode → ContextNode) :
    List ContextNode → List ContextNode
  | [] => []
  | c :: cs => if c.name = seg then g c :: cs else c :: modifyNamed seg g cs

/-- Modelled from the spec (§4.1 contract): `root[path]` returns the node for
`path` if it exists in the tree and fails with `NotFound` (Python `KeyError`)
otherwise — `none` here stands for the `KeyError`. -/
def getItem : List String → ContextNode → Option ContextNode
  | [], n => some n
  | _ :: _, .file _ _ _ _ _ _ => none
  | seg :: rest, .dir _ _ cs =>
      match findNamed seg cs with
      | none => none
      | some c => getItem rest c

/-- In-place mutation of the node at `path`, expressed functionally: apply
`F` to the node reached by `path` (identity when the path is absent). -/
def updateAt (F : ContextNode → ContextNode) : List String → ContextNode → ContextNode
  | [], n => F n
  | _ :: _, .file nm r a b s an => .file nm r a b s an
  | seg :: rest, .dir nm s cs => .dir nm s (modifyNamed seg (updateAt F rest) cs)

/-- The active feature added back node-by-node in the final loop of
`_set_code_map` (`_update_feature` in the source). -/
inductive Feature where
  | include_signature
  | code_map
deriving DecidableEq

/-- The one-key dict `{_update_feature: b}`. -/
def featureUpdate : Feature → Bool → SettingsUpdate
  | .include_signature, b => ⟨none, none, none, some b⟩
  | .code_map, b => ⟨none, none, some b, none⟩

mutual
/-- The trailing loop of `_set_code_map` ("add features to files one-by-one
till we run out of space"): visit nodes in pre-order; for each node take its
non-recursive token count as `baseline`, enable the active feature for that
node alone, re-count as `adjusted`; if `adjusted - baseline > token_budget`
revert the node and `break`, else subtract the delta from the budget and
continue.  Returns the new tree, the remaining budget and whether the loop
was left by `break`. -/
def add_features (feat : Feature) : ContextNode → Int → ContextNode × Int × Bool
  | .file nm r a b s an, token_budget =>
      let baseline : Int := tokensOwn (.file nm r a b s an)
      let s' := applySettings s (featureUpdate feat true)
      let adjusted : Int := tokensOwn (.file nm r a b s' an)
      if adjusted - baseline > token_budget then (.file nm r a b s an, token_budget, true)
      else (.file nm r a b s' an, token_budget - (adjusted - baseline), false)
  | .dir nm s cs, token_budget =>
      let baseline : Int := tokensOwn (.dir nm s cs)
      let s' := applySettings s (featureUpdate feat true)
      let adjusted : Int := tokensOwn (.dir nm s' cs)
      if adjusted - baseline > token_budget then (.dir nm s cs, token_budget, true)
      else
        let r := add_features_list feat cs (token_budget - (adjusted - baseline))
        (.dir nm s' r.1, r.2.1, r.2.2)
def add_features_list (feat : Feature) : List ContextNode → Int → List ContextNode × Int × Bool
  | [], token_budget => ([], token_budget, false)
  | c :: cs, token_budget =>
      let r := add_features feat c token_budget
      if r.2.2 then (r.1 :: cs, r.2.1, true)
      else
        let r2 := add_features_list feat cs r.2.1
        (r.1 :: r2.1, r2.2.1, r2.2.2)
end

/-- Python truthiness of `max_tokens`: `not max_tokens` is true for `None`
and for `0`. -/
def pyFalsy : Option Nat → Bool
  | none => true
  | some n => n == 0

/-- `_set_code_map(root, model, max_tokens)`, translated line by line.
`ctags_ok` is the outcome of the external `check_ctags_executable()` probe
(modelled from the spec as a boolean capability: on failure the function
warns and returns without touching the tree). -/
def set_code_map (ctags_ok : Bool) (root : ContextNode) (model : String)
    (max_tokens : Option Nat) : ContextNode :=
  match ctags_ok with
  | false => root
  | true =>
    -- Try to include everything
    let root1 := update_settings ⟨none, none, some true, some true⟩ true root
    let context_length := count_tokens root1 model true
    if pyFalsy max_tokens = true ∨ context_length ≤ max_tokens.getD 0 then
      root1
    else
      -- Otherwise, find the level at which everything fits...
      let root2 := update_settings ⟨none, none, none, some false⟩ true root1
      let context_length2 := count_tokens root2 model true
      if context_length2 < max_tokens.getD 0 then
        (add_features .include_signature root2
          ((max_tokens.getD 0 : Int) - (context_length2 : Int))).1
      else
        let root3 := update_settings ⟨none, none, some false, none⟩ true root2
        let context_length3 := count_tokens root3 model true
        (add_features .code_map root3
          ((max_tokens.getD 0 : Int) - (context_length3 : Int))).1

/-- `_set_include_paths(root, paths, exclude_paths)`: iterate every node in
pre-order; a node whose relative path is in `paths` gets `include=True`
recursively, else (`elif`) one in `exclude_paths` gets `include=False`
recursively.  Because the pre-order visit of a descendant happens after its
ancestors, a recursive write from an ancestor is overridden by any later
matching descendant; the iteration is therefore compiled here by threading
the innermost pending recursive write (`pending`) down the tree. -/
def applyIncl (v : Option Bool) (s : NodeSettings) : NodeSettings :=
  match v with
  | none => s
  | some b => { s with incl := b }

mutual
def set_include_paths_node (paths exclude_paths : List (List String))
    (rel : List String) (pending : Option Bool) : ContextNode → ContextNode
  | .file nm r a b s an =>
      let v := if rel ∈ paths then some true
               else if rel ∈ exclude_paths then some false
               else pending
      .file nm r a b (applyIncl v s) an
  | .dir nm s cs =>
      let v := if rel ∈ paths then some true
               else if rel ∈ exclude_paths then some false
               else pending
      .dir nm (applyIncl v s) (set_include_paths_children paths exclude_paths rel v cs)
def set_include_paths_children (paths exclude_paths : List (List String))
    (rel : List String) (pending : Option Bool) : List ContextNode → List ContextNode
  | [] => []
  | c :: cs =>
      set_include_paths_node paths exclude_paths (rel ++ [c.name]) pending c
        :: set_include_paths_children paths exclude_paths rel pending cs
end

def set_include_paths (root : ContextNode) (paths exclude_paths : List (List String)) :
    ContextNode :=
  set_include_paths_node paths exclude_paths [] none root

/-- The external diff collaborator's output (spec §3 `DiffContext`): the set
of touched paths and the per-file line annotations. -/
structure DiffContext where
  files : List (List String)
  notes : List (List String × List DiffNote)
deriving DecidableEq

/-- `diff_context.get_diff_annotations(relative_path)`. -/
def DiffContext.get_diff_annotations (dc : DiffContext) (p : List String) : List DiffNote :=
  ((dc.notes.find? (fun e => e.1 = p)).map (fun e => e.2)).getD []

/-- `node.set_diff_annotations(...)`: attach the notes to a file node. -/
def attach_notes (an : List DiffNote) : ContextNode → ContextNode
  | .file nm r a b s _ => .file nm r a b s an
  | .dir nm s cs => .dir nm s cs

/-- The per-file body of `_set_diff_annotations`: mark `diff=True`
recursively, and if the node is a `FileNode` attach the diff's notes. -/
def markDiff (dc : DiffContext) (p : List String) (n : ContextNode) : ContextNode :=
  let n1 := update_settings ⟨none, some true, none, none⟩ true n
  if n1.isFile then attach_notes (dc.get_diff_annotations p) n1 else n1

def set_diff_annotations_go (dc : DiffContext) :
    List (List String) → ContextNode → Except (List String) ContextNode
  | [], r => .ok r
  | f :: fs, r =>
      match getItem f r with
      | none => .error f
      | some _ => set_diff_annotations_go dc fs (updateAt (markDiff dc f) f r)

/-- `_set_diff_annotations(root, diff_context)`: for each path in the diff's
file set look the node up with `root[file]` (which fails with `NotFound` for
an absent path — the `.error` case), mark it and attach notes. -/
def set_diff_annotations (root : ContextNode) (dc : DiffContext) :
    Except (List String) ContextNode :=
  set_diff_annotations_go dc dc.files root

/-- The user settings carried by the facade (`context_settings`). -/
structure ContextSettings where
  paths : List (List String)
  exclude_paths : List (List String)
  no_code_map : Bool
deriving DecidableEq

/-- The observable outcome of one `CodeContext.refresh` call. -/
inductive RefreshOutcome where
  /-- `get_diff_context` raised `UserError`: the message is printed and
  `exit()` terminates the whole session. -/
  | exited
  /-- `root[file]` raised `KeyError` inside `_set_diff_annotations`; the
  exception propagates out of `refresh`. -/
  | notFound (p : List String)
  /-- the "Code context exceeds token limit" exception was raised. -/
  | budgetExceeded (context_length max_tokens : Nat)
  /-- normal completion, with the final tree and the (possibly defaulted)
  include path list. -/
  | ok (root : ContextNode) (paths : List (List String))

/-- `CodeContext.refresh(max_tokens)`, translated from the source.
The filesystem re-scan `self.root.refresh()` is external to the verified
file; modelled from the spec, the input `root` is taken to be the post-scan
tree state.  `diffResult` is what the external `get_diff_context` returns
(`.error` standing for a raised `UserError`), and `ctags_ok` is the ctags
probe consumed by `_set_code_map`. -/
def refresh (ctags_ok : Bool) (root : ContextNode) (cs : ContextSettings)
    (model : String) (diffResult : Except String DiffContext)
    (max_tokens : Option Nat) : RefreshOutcome :=
  match diffResult with
  | .error _ => .exited
  | .ok diff_context =>
    let paths := if cs.paths = [] then diff_context.files else cs.paths
    let root1 := set_include_paths root paths cs.exclude_paths
    match set_diff_annotations root1 diff_context with
    | .error p => .notFound p
    | .ok root2 =>
      -- Validate length
      let context_length := count_tokens root2 model true
      if pyFalsy max_tokens = false ∧ max_tokens.getD 0 < context_length then
        .budgetExceeded context_length (max_tokens.getD 0)
      else
        -- Fill-in extra space with code_map
        if cs.no_code_map then .ok root2 paths
        else .ok (set_code_map ctags_ok root2 model max_tokens) paths

/-- Modelled from the spec (§4.1): `get_node(part, parent)` creates the
missing node for one path segment under `parent`, inheriting the parent's
settings; a `DirectoryNode` when the corresponding filesystem path has
entries below it, else a `FileNode` (the token costs of a file created this
way are not specified; taken as 0).  `fs` is the set of existing paths
relative to the tree root and `abs_path` the created node's path. -/
def get_node (fs : List (List String)) (abs_path : List String) (name : String)
    (parent_settings : NodeSettings) : ContextNode :=
  if fs.any (fun p => p.length > abs_path.length && abs_path.isPrefixOf p) then
    .dir name parent_settings []
  else
    .file name 0 0 0 parent_settings []

/-- The `except KeyError` branch of `add_path`: iterate the path's segments;
for each `part` not among `_cursor.children`, insert
`get_node(part, _cursor)`.  NOTE (faithful to the source): `_cursor` is never
advanced, so every part is inserted directly under the root. -/
def add_ignored (fs : List (List String)) : List String → ContextNode → ContextNode
  | [], root => root
  | part :: rest, root =>
      let root' :=
        match root with
        | .dir nm s children =>
            if (findNamed part children).isSome then .dir nm s children
            else .dir nm s (children ++ [get_node fs [part] part s])
        | .file nm r a b s an => .file nm r a b s an
      add_ignored fs rest root'

/-- `CodeContext.add_path(path)`: `path` is given relative to the root and
`fs` is the set of existing on-disk paths (for `path.exists()` and for
`get_node`). -/
def add_path (fs : List (List String)) (root : ContextNode) (path : List String) :
    ContextNode :=
  if path ∈ fs then
    match getItem path root with
    | some node =>
        if node.node_settings.incl then root
        else updateAt (update_settings ⟨some true, none, none, none⟩ true) path root
    | none => add_ignored fs path root
  else root

/-! ### Basic lemmas about the tree operations -/

theorem tokensOwnR_toRec (n : ContextNode) : tokensOwnR (toRec n) = tokensOwn n := by
  cases n <;> rfl

/-- The effect of a recursive settings update on one node record. -/
def recU (u : SettingsUpdate) (r : NodeRec) : NodeRec :=
  ⟨r.isFile, r.raw, r.mapNoSig, r.mapSig, applySettings r.node_settings u⟩

theorem toRec_update (u : SettingsUpdate) (b : Bool) (n : ContextNode) :
    toRec (update_settings u b n) = recU u (toRec n) := by
  cases n <;> rfl

mutual
theorem flatten_update (u : SettingsUpdate) :
    ∀ n : ContextNode, flatten (update_settings u true n) = (flatten n).map (recU u)
  | .file nm r a b s an => by simp [flatten, update_settings, toRec, recU]
  | .dir nm s cs => by
      simp [flatten, update_settings, toRec, recU, flattenList_update u cs]
theorem flattenList_update (u : SettingsUpdate) :
    ∀ cs : List ContextNode, flattenList (updateAll u cs) = (flattenList cs).map (recU u)
  | [] => by simp [flattenList, updateAll]
  | c :: cs => by
      simp [flattenList, updateAll, flatten_update u c, flattenList_update u cs]
end

mutual
theorem tokensRec_eq_sum :
    ∀ n : ContextNode, tokensRec n = ((flatten n).map tokensOwnR).sum
  | .file nm r a b s an => by
      simp [tokensRec, flatten, tokensOwnR_toRec]
  | .dir nm s cs => by
      simp [tokensRec, flatten, tokensOwnR_toRec, tokensRecList_eq_sum cs, tokensOwn]
theorem tokensRecList_eq_sum :
    ∀ cs : List ContextNode, tokensRecList cs = ((flattenList cs).map tokensOwnR).sum
  | [] => by simp [tokensRecList, flattenList]
  | c :: cs => by
      simp [tokensRecList, flattenList, tokensRec_eq_sum c, tokensRecList_eq_sum cs]
end

/-! ### The Stage-D greedy loop over the pre-order node sequence

`add_features_flat` is the spec's description of Stage D (§4.4 step 4),
phrased directly over the pre-order list of nodes: visit nodes in order; if
the node's non-recursive delta fits the remaining budget, commit it and
subtract the delta, otherwise leave that node and everything after it at the
baseline and stop. -/

def deltaR (feat : Feature) (r : NodeRec) : Int :=
  (tokensOwnR (recU (featureUpdate feat true) r) : Int) - (tokensOwnR r : Int)

def add_features_flat (feat : Feature) : List NodeRec → Int → List NodeRec × Int × Bool
  | [], token_budget => ([], token_budget, false)
  | r :: rs, token_budget =>
      if deltaR feat r > token_budget then (r :: rs, token_budget, true)
      else
        let q := add_features_flat feat rs (token_budget - deltaR feat r)
        (recU (featureUpdate feat true) r :: q.1, q.2.1, q.2.2)

theorem add_features_flat_append (feat : Feature) (xs ys : List NodeRec) (b : Int) :
    add_features_flat feat (xs ++ ys) b =
      (let p := add_features_flat feat xs b
       if p.2.2 then (p.1 ++ ys, p.2.1, true)
       else
         let q := add_features_flat feat ys p.2.1
         (p.1 ++ q.1, q.2.1, q.2.2)) := by
  induction xs generalizing b with
  | nil => simp [add_features_flat]
  | cons r rs ih =>
      simp only [List.cons_append, add_features_flat, List.append_eq]
      by_cases h : deltaR feat r > b
      · simp [h]
      · simp only [h, if_false]
        rw [ih (b - deltaR feat r)]
        by_cases h2 : (add_features_flat feat rs (b - deltaR feat r)).2.2
        · simp [h2]
        · simp [h2]

mutual
theorem add_features_flatten (feat : Feature) :
    ∀ (n : ContextNode) (b : Int),
      add_features_flat feat (flatten n) b
        = (flatten (add_features feat n b).1,
           (add_features feat n b).2.1, (add_features feat n b).2.2)
  | .file nm r a c s an, b => by
      have h1 : recU (featureUpdate feat true) (toRec (.file nm r a c s an))
          = toRec (.file nm r a c (applySettings s (featureUpdate feat true)) an) := rfl
      have h2 : deltaR feat (toRec (.file nm r a c s an))
          = (tokensOwn (.file nm r a c (applySettings s (featureUpdate feat true)) an) : Int)
            - (tokensOwn (.file nm r a c s an) : Int) := by
        rw [deltaR, h1, tokensOwnR_toRec, tokensOwnR_toRec]
      simp only [flatten, add_features_flat, add_features, h2, h1]
      split <;> simp [flatten]
  | .dir nm s cs, b => by
      have h1 : recU (featureUpdate feat true) (toRec (.dir nm s cs))
          = toRec (.dir nm (applySettings s (featureUpdate feat true)) cs) := rfl
      have h2 : deltaR feat (toRec (.dir nm s cs))
          = (tokensOwn (.dir nm (applySettings s (featureUpdate feat true)) cs) : Int)
            - (tokensOwn (.dir nm s cs) : Int) := by
        rw [deltaR, h1, tokensOwnR_toRec, tokensOwnR_toRec]
      simp only [flatten, add_features_flat, add_features, h2, h1]
      split
      · simp [flatten]
      · simp only [flatten, add_features_list_flatten feat cs
          (b - ((tokensOwn (.dir nm (applySettings s (featureUpdate feat true)) cs) : Int)
            - (tokensOwn (.dir nm s cs) : Int))), toRec]
theorem add_features_list_flatten (feat : Feature) :
    ∀ (cs : List ContextNode) (b : Int),
      add_features_flat feat (flattenList cs) b
        = (flattenList (add_features_list feat cs b).1,
           (add_features_list feat cs b).2.1, (add_features_list feat cs b).2.2)
  | [], b => by simp [flattenList, add_features_flat, add_features_list]
  | c :: cs, b => by
      simp only [flattenList, add_features_flat_append, add_features_flatten feat c b,
        add_features_list]
      by_cases h : (add_features feat c b).2.2
      · simp [h, flattenList]
      · simp only [h, if_false, Bool.false_eq_true,
          add_features_list_flatten feat cs (add_features feat c b).2.1, flattenList]
end

/-! ### Budget accounting for the greedy loop -/

/-- Total own-token cost of a node sequence, in `Int` for budget arithmetic. -/
def sumTok (l : List NodeRec) : Int := (l.map (fun r => (tokensOwnR r : Int))).sum

theorem sumTok_eq (l : List NodeRec) : sumTok l = ((l.map tokensOwnR).sum : Int) := by
  induction l with
  | nil => simp [sumTok]
  | cons r rs ih => simp [sumTok, List.map_cons, List.sum_cons, Nat.cast_add] at ih ⊢; omega

theorem add_features_flat_sum (feat : Feature) :
    ∀ (l : List NodeRec) (b : Int),
      sumTok (add_features_flat feat l b).1 + (add_features_flat feat l b).2.1
        = sumTok l + b
  | [], b => by simp [add_features_flat]
  | r :: rs, b => by
      by_cases h : deltaR feat r > b
      · simp [add_features_flat, h]
      · simp only [add_features_flat, h, if_false, sumTok, List.map_cons, List.sum_cons]
        have ih := add_features_flat_sum feat rs (b - deltaR feat r)
        simp only [sumTok] at ih
        simp only [deltaR] at ih ⊢
        omega

theorem add_features_flat_nonneg (feat : Feature) :
    ∀ (l : List NodeRec) (b : Int), 0 ≤ b → 0 ≤ (add_features_flat feat l b).2.1
  | [], b, hb => by simpa [add_features_flat] using hb
  | r :: rs, b, hb => by
      by_cases h : deltaR feat r > b
      · simpa [add_features_flat, h] using hb
      · simp only [add_features_flat, h, if_false]
        exact add_features_flat_nonneg feat rs (b - deltaR feat r) (by omega)

theorem tokensRec_cast (n : ContextNode) : (tokensRec n : Int) = sumTok (flatten n) := by
  rw [tokensRec_eq_sum, sumTok_eq]

/-- Budget bookkeeping for the greedy loop on the tree: final total plus
remaining budget equals initial total plus initial budget. -/
theorem add_features_total (feat : Feature) (n : ContextNode) (b : Int) :
    (tokensRec (add_features feat n b).1 : Int) + (add_features feat n b).2.1
      = (tokensRec n : Int) + b := by
  have h := add_features_flatten feat n b
  have h1 := add_features_flat_sum feat (flatten n) b
  rw [h] at h1
  rw [tokensRec_cast, tokensRec_cast]
  exact h1

theorem add_features_budget_nonneg (feat : Feature) (n : ContextNode) (b : Int)
    (hb : 0 ≤ b) : 0 ≤ (add_features feat n b).2.1 := by
  have h := add_features_flatten feat n b
  have h1 := add_features_flat_nonneg feat (flatten n) b hb
  rw [h] at h1
  exact h1

/-- If the initial budget is nonnegative, the greedy loop never pushes the
total over `initial total + budget`. -/
theorem add_features_le (feat : Feature) (n : ContextNode) (b : Int) (hb : 0 ≤ b) :
    (tokensRec (add_features feat n b).1 : Int) ≤ (tokensRec n : Int) + b := by
  have h1 := add_features_total feat n b
  have h2 := add_features_budget_nonneg feat n b hb
  omega

/-! ### Stage algebra for `_set_code_map` -/

/-- The Stage-C baseline (spec §4.4 step 3): the total token count with
`code_map` disabled on every node. -/
def stageCTotal (n : ContextNode) : Nat :=
  tokensRec (update_settings ⟨none, none, some false, none⟩ true n)

theorem tokensOwnR_stageC (r : NodeRec) :
    tokensOwnR (recU ⟨none, none, some false, none⟩
        (recU ⟨none, none, none, some false⟩ (recU ⟨none, none, some true, some true⟩ r)))
      = tokensOwnR (recU ⟨none, none, some false, none⟩ r) := by
  rcases r with ⟨f, raw, a, b, i, d, cm, sg⟩
  simp [recU, applySettings, tokensOwnR]

/-- Applying stages A, B and C in order ends at the Stage-C baseline. -/
theorem stage_chain_eq (n : ContextNode) :
    tokensRec (update_settings ⟨none, none, some false, none⟩ true
        (update_settings ⟨none, none, none, some false⟩ true
          (update_settings ⟨none, none, some true, some true⟩ true n)))
      = stageCTotal n := by
  rw [stageCTotal, tokensRec_eq_sum, tokensRec_eq_sum]
  simp only [flatten_update, List.map_map]
  refine congrArg List.sum (List.map_congr_left ?_)
  intro r _
  simp only [Function.comp_apply]
  exact tokensOwnR_stageC r

theorem tokensOwnR_cmOff_le (r : NodeRec) :
    tokensOwnR (recU ⟨none, none, some false, none⟩ r) ≤ tokensOwnR r := by
  rcases r with ⟨f, raw, a, b, i, d, cm, sg⟩
  simp only [recU, applySettings, tokensOwnR, Option.getD]
  cases f <;> cases i <;> simp

/-- Disabling `code_map` everywhere never increases the total: the Stage-C
baseline is below the current total, whatever the current settings are. -/
theorem stageCTotal_le (n : ContextNode) : stageCTotal n ≤ tokensRec n := by
  rw [stageCTotal, tokensRec_eq_sum, tokensRec_eq_sum, flatten_update, List.map_map]
  apply List.sum_le_sum
  intro r _
  simp only [Function.comp_apply]
  exact tokensOwnR_cmOff_le r

/-! ### Claim C1 — allocator safety -/

/-- Default node settings used by the concrete examples below: included, not
in the diff, no code map. -/
def dflt : NodeSettings := ⟨true, false, false, false⟩

/-- C1 (amended): for every tree, model and *positive* ceiling that is at
least the Stage-C baseline total, after `_set_code_map` runs (with the ctags
probe succeeding) the root's recursive token count is at most the ceiling. -/
theorem C1_allocator_safety (t : ContextNode) (model : String) (m : Nat)
    (hm : 0 < m) (hC : stageCTotal t ≤ m) :
    tokensRec (set_code_map true t model (some m)) ≤ m := by
  have hpf : pyFalsy (some m) = false := by
    simp only [pyFalsy, beq_eq_false_iff_ne, ne_eq]
    omega
  simp only [set_code_map, count_tokens, if_true, Option.getD_some, hpf,
    Bool.false_eq_true, false_or]
  split
  · next h1 => exact h1
  · next h1 =>
      split
      · next h2 =>
          have hb : (0 : Int) ≤ (m : Int)
              - (tokensRec (update_settings ⟨none, none, none, some false⟩ true
                  (update_settings ⟨none, none, some true, some true⟩ true t)) : Int) := by
            omega
          have hle := add_features_le .include_signature
            (update_settings ⟨none, none, none, some false⟩ true
              (update_settings ⟨none, none, some true, some true⟩ true t))
            ((m : Int) - (tokensRec (update_settings ⟨none, none, none, some false⟩ true
              (update_settings ⟨none, none, some true, some true⟩ true t)) : Int)) hb
          omega
      · next h2 =>
          have hc3 := stage_chain_eq t
          have hb : (0 : Int) ≤ (m : Int)
              - (tokensRec (update_settings ⟨none, none, some false, none⟩ true
                  (update_settings ⟨none, none, none, some false⟩ true
                    (update_settings ⟨none, none, some true, some true⟩ true t))) : Int) := by
            omega
          have hle := add_features_le .code_map
            (update_settings ⟨none, none, some false, none⟩ true
              (update_settings ⟨none, none, none, some false⟩ true
                (update_settings ⟨none, none, some true, some true⟩ true t)))
            ((m : Int) - (tokensRec (update_settings ⟨none, none, some false, none⟩ true
              (update_settings ⟨none, none, none, some false⟩ true
                (update_settings ⟨none, none, some true, some true⟩ true t))) : Int)) hb
          omega

/-- A single included file with empty content (raw cost 0) whose code-map
form costs 5 tokens. -/
def C1_tree : ContextNode := .file "a.py" 0 2 5 dflt []

/-- C1 counterexample: the claim as stated admits the ceiling 0 (it asks only
for a nonnegative ceiling ≥ the Stage-C baseline, which is 0 here), but the
code treats a 0 ceiling as falsy and accepts Stage A, ending at 5 > 0
tokens. -/
theorem C1_cex :
    stageCTotal C1_tree ≤ 0 ∧
      ¬ tokensRec (set_code_map true C1_tree "gpt-4" (some 0)) ≤ 0 := by
  decide

/-- C1 witness: the amended theorem applied at ceiling 3 to `C1_tree`. -/
theorem C1_allocator_safety_witness :
    tokensRec (set_code_map true C1_tree "gpt-4" (some 3)) ≤ 3 :=
  C1_allocator_safety C1_tree "gpt-4" 3 (by decide) (by decide)

/-! ### Claim C3 — Stage D is the greedy pre-order walk -/

/-- C3: Stage D of `_set_code_map` visits nodes in tree pre-order; each
node's non-recursive delta for the active feature is committed and
subtracted from the budget if it fits, and at the first node whose delta
does not fit that node is reverted and no further node is visited.  Stated
as: the loop over the tree equals `add_features_flat` — the spec's walk over
the pre-order node sequence (`flatten`), which upgrades exactly a pre-order
prefix, keeps the first rejected node and everything after it at the
baseline, and stops. -/
theorem C3_stageD_preorder (feat : Feature) (n : ContextNode) (b : Int) :
    add_features_flat feat (flatten n) b
      = (flatten (add_features feat n b).1,
         (add_features feat n b).2.1, (add_features feat n b).2.2) :=
  add_features_flatten feat n b

/-! ### Claim C2 — Stage B does not stop the allocator -/

/-- In the `include_signature` round of the greedy loop, `code_map` stays
`true` on every node if it was `true` everywhere before. -/
theorem add_features_flat_cm (l : List NodeRec) (b : Int)
    (h : ∀ r ∈ l, r.node_settings.code_map = true) :
    ∀ r ∈ (add_features_flat .include_signature l b).1,
      r.node_settings.code_map = true := by
  induction l generalizing b with
  | nil => simpa [add_features_flat] using h
  | cons r rs ih =>
      by_cases hc : deltaR .include_signature r > b
      · simpa [add_features_flat, hc] using h
      · intro q hq
        simp only [add_features_flat, hc, if_false, List.mem_cons] at hq
        rcases hq with rfl | hq
        · have hr := h r (List.mem_cons_self r rs)
          simpa [recU, featureUpdate, applySettings] using hr
        · exact ih (b - deltaR .include_signature r)
            (fun x hx => h x (List.mem_cons_of_mem r hx)) q hq

/-- After stages A and B every node has `code_map = true`. -/
theorem flatten_stageB_cm (t : ContextNode) :
    ∀ r ∈ flatten (update_settings ⟨none, none, none, some false⟩ true
        (update_settings ⟨none, none, some true, some true⟩ true t)),
      r.node_settings.code_map = true := by
  intro r hr
  rw [flatten_update, flatten_update] at hr
  simp only [List.map_map, List.mem_map] at hr
  obtain ⟨r0, _, rfl⟩ := hr
  rfl

/-- C2 (amended): when Stage A exceeds the ceiling and Stage B is strictly
below it, the allocator does *not* stop at Stage B: it proceeds to Stage D
with active feature `include_signature`, re-enabling signatures greedily on
a pre-order prefix of nodes; every node still ends with `code_map = true`,
and only the nodes outside the upgraded prefix keep
`include_signature = false`. -/
theorem C2_stageB_then_greedy (t : ContextNode) (model : String) (m : Nat)
    (hm : 0 < m)
    (hA : ¬ tokensRec (update_settings ⟨none, none, some true, some true⟩ true t) ≤ m)
    (hB : tokensRec (update_settings ⟨none, none, none, some false⟩ true
        (update_settings ⟨none, none, some true, some true⟩ true t)) < m) :
    set_code_map true t model (some m)
      = (add_features .include_signature
          (update_settings ⟨none, none, none, some false⟩ true
            (update_settings ⟨none, none, some true, some true⟩ true t))
          ((m : Int) - (tokensRec (update_settings ⟨none, none, none, some false⟩ true
            (update_settings ⟨none, none, some true, some true⟩ true t)) : Int))).1
    ∧ ∀ r ∈ flatten (set_code_map true t model (some m)),
        r.node_settings.code_map = true := by
  have hpf : pyFalsy (some m) = false := by
    simp only [pyFalsy, beq_eq_false_iff_ne, ne_eq]
    omega
  have heq : set_code_map true t model (some m)
      = (add_features .include_signature
          (update_settings ⟨none, none, none, some false⟩ true
            (update_settings ⟨none, none, some true, some true⟩ true t))
          ((m : Int) - (tokensRec (update_settings ⟨none, none, none, some false⟩ true
            (update_settings ⟨none, none, some true, some true⟩ true t)) : Int))).1 := by
    simp only [set_code_map, count_tokens, if_true, Option.getD_some, hpf,
      Bool.false_eq_true, false_or]
    rw [if_neg hA, if_pos hB]
  refine ⟨heq, ?_⟩
  rw [heq]
  have hflat := add_features_flatten .include_signature
    (update_settings ⟨none, none, none, some false⟩ true
      (update_settings ⟨none, none, some true, some true⟩ true t))
    ((m : Int) - (tokensRec (update_settings ⟨none, none, none, some false⟩ true
      (update_settings ⟨none, none, some true, some true⟩ true t)) : Int))
  intro r hr
  have : r ∈ (add_features_flat .include_signature
      (flatten (update_settings ⟨none, none, none, some false⟩ true
        (update_settings ⟨none, none, some true, some true⟩ true t)))
      ((m : Int) - (tokensRec (update_settings ⟨none, none, none, some false⟩ true
        (update_settings ⟨none, none, some true, some true⟩ true t)) : Int))).1 := by
    rw [hflat]
    exact hr
  exact add_features_flat_cm _ _ (flatten_stageB_cm t) r this

/-- A root with three files each costing 10 raw, 60 under code-map
names-only and 100 under code-map-full. -/
def C2_tree : ContextNode := .dir "root" dflt
  [.file "f1" 10 50 90 dflt [], .file "f2" 10 50 90 dflt [],
   .file "f3" 10 50 90 dflt []]

/-- C2 counterexample: with ceiling 250, Stage A totals 300 (rejected) and
Stage B totals 180 (within the ceiling), but the allocator does not stop
there: file `f1` ends with `include_signature = true`, contradicting the
claim that every node ends with `include_signature = false`. -/
theorem C2_cex :
    ¬ tokensRec (update_settings ⟨none, none, some true, some true⟩ true C2_tree) ≤ 250 ∧
    tokensRec (update_settings ⟨none, none, none, some false⟩ true
      (update_settings ⟨none, none, some true, some true⟩ true C2_tree)) ≤ 250 ∧
    ((getItem ["f1"] (set_code_map true C2_tree "gpt-4" (some 250))).map
        (fun n => n.node_settings.include_signature)) = some true := by
  decide

/-- C2 witness: the amended theorem applied to `C2_tree` with ceiling 250. -/
theorem C2_stageB_then_greedy_witness :
    set_code_map true C2_tree "gpt-4" (some 250)
      = (add_features .include_signature
          (update_settings ⟨none, none, none, some false⟩ true
            (update_settings ⟨none, none, some true, some true⟩ true C2_tree))
          ((250 : Int) - (tokensRec (update_settings ⟨none, none, none, some false⟩ true
            (update_settings ⟨none, none, some true, some true⟩ true C2_tree)) : Int))).1
    ∧ ∀ r ∈ flatten (set_code_map true C2_tree "gpt-4" (some 250)),
        r.node_settings.code_map = true :=
  C2_stageB_then_greedy C2_tree "gpt-4" 250 (by decide) (by decide) (by decide)

/-! ### Claim C5 — ctags unavailable: allocator is a no-op -/

/-- C5: when the ctags availability check fails, `_set_code_map` warns and
returns without touching the tree: the state after the call is the state
before it (no settings change, no token-count change). -/
theorem C5_ctags_unavailable_noop (root : ContextNode) (model : String)
    (max_tokens : Option Nat) :
    set_code_map false root model max_tokens = root := rfl

/-! ### Claim C10 — a ceiling of 0 is treated as no ceiling -/

/-- C10: `refresh` called with `max_tokens = 0` can never raise the
exceeds-budget condition (the Python guard `if max_tokens and ...` is falsy),
and `_set_code_map` with `max_tokens = 0` unconditionally accepts Stage A,
setting `code_map = True, include_signature = True` on every node. -/
theorem C10_zero_ceiling :
    (∀ (ctags_ok : Bool) (root : ContextNode) (cs : ContextSettings) (model : String)
        (diffResult : Except String DiffContext) (u l : Nat),
        refresh ctags_ok root cs model diffResult (some 0) ≠ .budgetExceeded u l)
    ∧ ∀ (t : ContextNode) (model : String),
        set_code_map true t model (some 0)
          = update_settings ⟨none, none, some true, some true⟩ true t := by
  constructor
  · intro ctags_ok root cs model diffResult u l
    cases diffResult with
    | error e => simp [refresh]
    | ok dc =>
        simp only [refresh]
        cases hsd : set_diff_annotations (set_include_paths root
            (if cs.paths = [] then dc.files else cs.paths) cs.exclude_paths) dc with
        | error p => simp
        | ok root2 =>
            have hpf : pyFalsy (some 0) = true := rfl
            simp only [hpf]
            simp only [Bool.true_eq_false, false_and, if_false]
            cases cs.no_code_map <;> simp
  · intro t model
    rfl

/-! ### Claim C4 — validate before allocating -/

/-- C4 (amended): with a *positive* configured ceiling, if the validated
total of the overlaid tree exceeds the ceiling then `refresh` raises the
exceeds-budget condition and the allocator is never invoked; if the total
is within the ceiling and code-map is not disabled, `refresh` completes by
running the allocator — whose Stage-C baseline is then necessarily within
the ceiling, i.e. the allocator starts with nonnegative budget at
Stage C. -/
theorem C4_validate_then_allocate (ctags_ok : Bool) (root : ContextNode)
    (cs : ContextSettings) (model : String) (dc : DiffContext) (m : Nat)
    (root2 : ContextNode) (hm : 0 < m)
    (hsd : set_diff_annotations (set_include_paths root
        (if cs.paths = [] then dc.files else cs.paths) cs.exclude_paths) dc
      = .ok root2) :
    (m < tokensRec root2 →
      refresh ctags_ok root cs model (.ok dc) (some m)
        = .budgetExceeded (tokensRec root2) m)
    ∧ (tokensRec root2 ≤ m → cs.no_code_map = false →
      refresh ctags_ok root cs model (.ok dc) (some m)
        = .ok (set_code_map ctags_ok root2 model (some m))
            (if cs.paths = [] then dc.files else cs.paths)
      ∧ stageCTotal root2 ≤ m) := by
  have hpf : pyFalsy (some m) = false := by
    simp only [pyFalsy, beq_eq_false_iff_ne, ne_eq]
    omega
  constructor
  · intro hgt
    simp only [refresh, hsd, count_tokens, if_true, Option.getD_some]
    rw [if_pos ⟨hpf, hgt⟩]
  · intro hle hncm
    refine ⟨?_, le_trans (stageCTotal_le root2) hle⟩
    simp only [refresh, hsd, count_tokens, if_true, Option.getD_some]
    rw [if_neg (fun h => absurd h.2 (not_lt.mpr hle)), hncm]
    simp

/-- A root directory with one included file of raw cost 5. -/
def C4_tree : ContextNode := .dir "root" dflt [.file "a.py" 5 2 3 dflt []]

/-- C4 counterexample: with a configured ceiling of exactly 0 the validated
total 5 exceeds the ceiling, yet `refresh` does not fail with the
exceeds-budget condition — it completes normally (the guard treats 0 as
falsy). -/
theorem C4_cex :
    tokensRec C4_tree = 5 ∧
    refresh true C4_tree ⟨[], [], true⟩ "gpt-4" (.ok ⟨[], []⟩) (some 0)
      = .ok C4_tree [] := ⟨rfl, rfl⟩

/-- C4 witness: the amended theorem applied to `C4_tree` with ceiling 3
(5 > 3, so refresh raises the exceeds-budget condition). -/
theorem C4_validate_then_allocate_witness :
    refresh true C4_tree ⟨[], [], false⟩ "gpt-4" (.ok ⟨[], []⟩) (some 3)
      = .budgetExceeded 5 3 :=
  (C4_validate_then_allocate true C4_tree ⟨[], [], false⟩ "gpt-4" ⟨[], []⟩ 3 C4_tree
    (by decide) rfl).1 (by decide)

/-! ### Claim C9 — propagation policy of `refresh` -/

/-- C9 (amended): the exceeds-budget condition aborts `refresh`; but not
every other condition degrades gracefully: a `UserError` from the diff
source terminates the whole session (`exit()` — `.exited`), and a diff path
absent from the tree makes `root[file]` raise `NotFound`, which propagates
out of `refresh` (`.notFound`).  The ctags-unavailable condition does
degrade gracefully: with the probe failing, `refresh` still completes and
returns the overlaid tree untouched by the allocator. -/
theorem C9_propagation :
    (∀ (ctags_ok : Bool) (root : ContextNode) (cs : ContextSettings) (model : String)
        (e : String) (mt : Option Nat),
        refresh ctags_ok root cs model (.error e) mt = .exited)
    ∧ (∀ (ctags_ok : Bool) (root : ContextNode) (cs : ContextSettings) (model : String)
        (dc : DiffContext) (mt : Option Nat) (p : List String),
        set_diff_annotations (set_include_paths root
          (if cs.paths = [] then dc.files else cs.paths) cs.exclude_paths) dc = .error p →
        refresh ctags_ok root cs model (.ok dc) mt = .notFound p)
    ∧ (∀ (root root2 : ContextNode) (cs : ContextSettings) (model : String)
        (dc : DiffContext) (mt : Option Nat),
        set_diff_annotations (set_include_paths root
          (if cs.paths = [] then dc.files else cs.paths) cs.exclude_paths) dc = .ok root2 →
        ¬ (pyFalsy mt = false ∧ mt.getD 0 < tokensRec root2) →
        cs.no_code_map = false →
        refresh false root cs model (.ok dc) mt
          = .ok root2 (if cs.paths = [] then dc.files else cs.paths)) := by
  refine ⟨?_, ?_, ?_⟩
  · intro ctags_ok root cs model e mt
    rfl
  · intro ctags_ok root cs model dc mt p hsd
    simp only [refresh, hsd]
  · intro root root2 cs model dc mt hsd hval hncm
    simp only [refresh, hsd, count_tokens, if_true, Option.getD_some]
    rw [if_neg hval, hncm]
    simp only [Bool.false_eq_true, if_false]
    rfl

/-- A `UserError` from the diff source makes `refresh` call `exit()`: the
session terminates, contradicting the claim that a user-input error from the
diff source degrades gracefully. -/
theorem C9_cex :
    refresh true (.dir "root" dflt []) ⟨[], [], true⟩ "gpt-4"
      (.error "bad diff target") (some 5) = .exited := rfl

/-- C9 witness: a diff touching a path absent from the tree makes `refresh`
propagate `NotFound`. -/
theorem C9_propagation_witness :
    refresh true (.dir "root" dflt []) ⟨[], [], false⟩ "gpt-4"
      (.ok ⟨[["gone.py"]], []⟩) (some 5) = .notFound ["gone.py"] :=
  C9_propagation.2.1 true (.dir "root" dflt []) ⟨[], [], false⟩ "gpt-4"
    ⟨[["gone.py"]], []⟩ (some 5) ["gone.py"] rfl

/-! ### Claim C7 — `add_path` creation of missing nested nodes -/

/-- The on-disk paths for the C7 scenario: a git-ignored directory `vendor`
containing `lib.py`, both absent from the tree. -/
def C7_fs : List (List String) := [["vendor"], ["vendor", "lib.py"]]

/-- C7: the claim (and spec §4.1 / Scenario 4) says `add_path` creates each
missing node nested under the previous one, with the terminal file a
descendant of the `vendor` directory.  The code's creation loop never
advances its `_cursor`, so both nodes are created as direct children of the
root: the `vendor` directory stays empty and `lib.py` hangs directly off the
root, so looking up `vendor/lib.py` still fails.  This contradicts both the
spec's words and the evident intent of iterating the path's segments. -/
theorem C7_add_path_flat_bug :
    add_path C7_fs (.dir "root" dflt []) ["vendor", "lib.py"]
      = .dir "root" dflt [.dir "vendor" dflt [], .file "lib.py" 0 0 0 dflt []]
    ∧ getItem ["vendor", "lib.py"]
        (add_path C7_fs (.dir "root" dflt []) ["vendor", "lib.py"]) = none :=
  ⟨rfl, rfl⟩

/-! ### Claim C8 — include list beats exclude list -/

theorem set_include_paths_node_name (paths ex : List (List String)) (rel : List String)
    (pending : Option Bool) (n : ContextNode) :
    (set_include_paths_node paths ex rel pending n).name = n.name := by
  cases n <;> simp [set_include_paths_node, ContextNode.name]

theorem findNamed_sip_children (paths ex : List (List String)) (rel : List String)
    (pending : Option Bool) (seg : String) :
    ∀ cs, findNamed seg (set_include_paths_children paths ex rel pending cs)
      = (findNamed seg cs).map
          (set_include_paths_node paths ex (rel ++ [seg]) pending) := by
  intro cs
  induction cs with
  | nil => rfl
  | cons c cs ih =>
      simp only [set_include_paths_children, findNamed, set_include_paths_node_name]
      by_cases h : c.name = seg
      · simp only [h, if_true, Option.map_some']
      · simp only [h, if_false, ih]

theorem sip_getItem_mem_paths (paths ex : List (List String)) :
    ∀ (q : List String) (n : ContextNode) (rel : List String) (pending : Option Bool),
      (rel ++ q) ∈ paths → (getItem q n).isSome = true →
      ∃ m, getItem q (set_include_paths_node paths ex rel pending n) = some m
        ∧ m.node_settings.incl = true := by
  intro q
  induction q with
  | nil =>
      intro n rel pending hmem _
      rw [List.append_nil] at hmem
      refine ⟨set_include_paths_node paths ex rel pending n, rfl, ?_⟩
      cases n <;>
        simp [set_include_paths_node, ContextNode.node_settings, hmem, applyIncl]
  | cons seg q' ih =>
      intro n rel pending hmem hsome
      cases n with
      | file nm r a b s an => simp [getItem] at hsome
      | dir nm s cs =>
          cases hf : findNamed seg cs with
          | none =>
              rw [getItem, hf] at hsome
              simp at hsome
          | some c =>
              rw [getItem, hf] at hsome
              simp only [set_include_paths_node, getItem, findNamed_sip_children, hf,
                Option.map_some']
              exact ih c (rel ++ [seg]) _ (by simpa using hmem) hsome

/-- C8: for every node whose relative path appears in both the include and
the exclude list, after `_set_include_paths` runs the node's `include`
setting is `true` — the include list is checked first and exclude is an
`elif`, and no later pre-order visit can overwrite the node's own match. -/
theorem C8_include_wins (root : ContextNode) (paths exclude_paths : List (List String))
    (p : List String) (hp : p ∈ paths) (hx : p ∈ exclude_paths)
    (hex : (getItem p root).isSome = true) :
    ∃ m, getItem p (set_include_paths root paths exclude_paths) = some m
      ∧ m.node_settings.incl = true :=
  sip_getItem_mem_paths paths exclude_paths p root [] none (by simpa using hp) hex

/-- A root with one excluded-by-default file `b.py`. -/
def C8_tree : ContextNode := .dir "root" ⟨false, false, false, false⟩
  [.file "b.py" 1 0 0 ⟨false, false, false, false⟩ []]

/-- C8 witness: `b.py` in both lists ends included. -/
theorem C8_include_wins_witness :
    ∃ m, getItem ["b.py"] (set_include_paths C8_tree [["b.py"]] [["b.py"]]) = some m
      ∧ m.node_settings.incl = true :=
  C8_include_wins C8_tree [["b.py"]] [["b.py"]] ["b.py"] (by decide) (by decide)
    (by decide)

/-! ### Claim C6 — diff annotation of present and absent paths -/

theorem update_settings_name (u : SettingsUpdate) (b : Bool) (n : ContextNode) :
    (update_settings u b n).name = n.name := by cases n <;> rfl

theorem update_settings_isFile (u : SettingsUpdate) (b : Bool) (n : ContextNode) :
    (update_settings u b n).isFile = n.isFile := by cases n <;> rfl

theorem update_settings_notes (u : SettingsUpdate) (b : Bool) (n : ContextNode) :
    (update_settings u b n).notes = n.notes := by cases n <;> rfl

theorem markDiff_name (dc : DiffContext) (f : List String) (n : ContextNode) :
    (markDiff dc f n).name = n.name := by cases n <;> rfl

theorem markDiff_isFile (dc : DiffContext) (f : List String) (n : ContextNode) :
    (markDiff dc f n).isFile = n.isFile := by cases n <;> rfl

theorem markDiff_notes_file (dc : DiffContext) (f : List String) (n : ContextNode)
    (h : n.isFile = true) :
    (markDiff dc f n).notes = dc.get_diff_annotations f := by
  cases n with
  | file nm r a b s an => rfl
  | dir nm s cs => simp [ContextNode.isFile] at h

theorem markDiff_dir (dc : DiffContext) (f : List String) (n : ContextNode)
    (h : n.isFile = false) :
    markDiff dc f n = update_settings ⟨none, some true, none, none⟩ true n := by
  cases n with
  | file nm r a b s an => simp [ContextNode.isFile] at h
  | dir nm s cs => rfl

/-- `markDiff` leaves the node sequence unchanged except for setting `diff`
on every record. -/
theorem markDiff_flatten (dc : DiffContext) (f : List String) (n : ContextNode) :
    flatten (markDiff dc f n)
      = (flatten n).map (recU ⟨none, some true, none, none⟩) := by
  cases n with
  | file nm r a b s an => rfl
  | dir nm s cs =>
      show flatten (update_settings ⟨none, some true, none, none⟩ true (.dir nm s cs)) = _
      exact flatten_update _ _

theorem findNamed_updateAll (u : SettingsUpdate) (seg : String) :
    ∀ cs, findNamed seg (updateAll u cs)
      = (findNamed seg cs).map (update_settings u true) := by
  intro cs
  induction cs with
  | nil => rfl
  | cons c cs ih =>
      simp only [updateAll, findNamed, update_settings_name]
      by_cases h : c.name = seg
      · simp only [h, if_true, Option.map_some']
      · simp only [h, if_false, ih]

theorem getItem_update (u : SettingsUpdate) :
    ∀ (q : List String) (n : ContextNode),
      getItem q (update_settings u true n)
        = (getItem q n).map (update_settings u true) := by
  intro q
  induction q with
  | nil => intro n; rfl
  | cons seg q' ih =>
      intro n
      cases n with
      | file nm r a b s an => rfl
      | dir nm s cs =>
          have hdir : update_settings u true (.dir nm s cs)
              = .dir nm (applySettings s u) (updateAll u cs) := rfl
          rw [hdir]
          simp only [getItem, findNamed_updateAll]
          cases hf : findNamed seg cs with
          | none => simp [hf]
          | some c => simp [hf, ih]

theorem updateAt_markDiff_name (dc : DiffContext) (g0 : List String) :
    ∀ (p : List String) (n : ContextNode),
      (updateAt (markDiff dc g0) p n).name = n.name := by
  intro p n
  cases p with
  | nil => exact markDiff_name dc g0 n
  | cons seg rest => cases n <;> rfl

theorem findNamed_modifyNamed_self (G : ContextNode → ContextNode)
    (hG : ∀ n, (G n).name = n.name) (seg : String) :
    ∀ cs, findNamed seg (modifyNamed seg G cs) = (findNamed seg cs).map G := by
  intro cs
  induction cs with
  | nil => rfl
  | cons c cs ih =>
      simp only [modifyNamed]
      by_cases h : c.name = seg
      · simp only [h, if_true, findNamed, hG c, Option.map_some']
      · simp only [h, if_false, findNamed, ih]

theorem findNamed_modifyNamed_ne (G : ContextNode → ContextNode)
    (hG : ∀ n, (G n).name = n.name) (seg t : String) (hne : t ≠ seg) :
    ∀ cs, findNamed t (modifyNamed seg G cs) = findNamed t cs := by
  intro cs
  induction cs with
  | nil => rfl
  | cons c cs ih =>
      simp only [modifyNamed]
      by_cases h : c.name = seg
      · have hct : ¬ c.name = t := fun hh => hne (hh ▸ h ▸ rfl)
        have hgt : ¬ (G c).name = t := by rw [hG c]; exact hct
        have hst : ¬ seg = t := fun hh => hne hh.symm
        simp only [h, if_true, findNamed, hgt, hct, hst, if_false]
      · simp only [h, if_false, findNamed, ih]

theorem flattenList_modifyNamed_diff (G : ContextNode → ContextNode)
    (hG : ∀ c, (∀ t ∈ flatten c, t.node_settings.diff = true) →
      ∀ t ∈ flatten (G c), t.node_settings.diff = true) (seg : String) :
    ∀ cs, (∀ t ∈ flattenList cs, t.node_settings.diff = true) →
      ∀ t ∈ flattenList (modifyNamed seg G cs), t.node_settings.diff = true := by
  intro cs
  induction cs with
  | nil => intro h t ht; exact h t ht
  | cons c cs ih =>
      intro h t ht
      simp only [modifyNamed] at ht
      by_cases hc : c.name = seg
      · rw [if_pos hc] at ht
        simp only [flattenList, List.mem_append] at ht
        rcases ht with ht | ht
        · exact hG c (fun x hx => h x (by simp [flattenList, List.mem_append, hx])) t ht
        · exact h t (by simp [flattenList, List.mem_append, Or.inr ht])
      · rw [if_neg hc] at ht
        simp only [flattenList, List.mem_append] at ht
        rcases ht with ht | ht
        · exact h t (by simp [flattenList, List.mem_append, Or.inl ht])
        · exact ih (fun x hx => h x (by simp [flattenList, List.mem_append, Or.inr hx])) t ht

/-- The central frame lemma for `_set_diff_annotations`: marking the node at
path `p` keeps every node of the tree reachable, preserves file/directory
kind, only ever turns `diff` on (never off), replaces exactly the node at
`p` by its marked form, and leaves the attached notes of every other node
unchanged. -/
theorem updateAt_markDiff_getItem (dc : DiffContext) (g0 : List String) :
    ∀ (p q : List String) (r n : ContextNode), getItem q r = some n →
      ∃ n', getItem q (updateAt (markDiff dc g0) p r) = some n'
        ∧ n'.isFile = n.isFile
        ∧ ((∀ t ∈ flatten n, t.node_settings.diff = true) →
            ∀ t ∈ flatten n', t.node_settings.diff = true)
        ∧ (p = q → n' = markDiff dc g0 n)
        ∧ (p ≠ q → n'.notes = n.notes) := by
  intro p
  induction p with
  | nil =>
      intro q r n hq
      cases q with
      | nil =>
          simp only [getItem] at hq
          obtain rfl := Option.some.inj hq
          refine ⟨markDiff dc g0 r, rfl, markDiff_isFile dc g0 r, ?_,
            fun _ => rfl, fun h => absurd rfl h⟩
          intro _ t ht
          rw [markDiff_flatten] at ht
          obtain ⟨t0, _, rfl⟩ := List.mem_map.mp ht
          rfl
      | cons t q' =>
          cases r with
          | file nm ra a b s an => simp [getItem] at hq
          | dir nm s cs =>
              refine ⟨update_settings ⟨none, some true, none, none⟩ true n, ?_,
                update_settings_isFile _ _ n, ?_, ?_, fun _ => update_settings_notes _ _ n⟩
              · show getItem (t :: q') (markDiff dc g0 (.dir nm s cs)) = _
                rw [markDiff_dir dc g0 (.dir nm s cs) rfl, getItem_update, hq]
                rfl
              · intro _ x hx
                rw [flatten_update] at hx
                obtain ⟨x0, _, rfl⟩ := List.mem_map.mp hx
                rfl
              · intro hpq
                exact List.noConfusion hpq
  | cons seg p' ih =>
      intro q r n hq
      cases r with
      | file nmr ra a b s an =>
          cases q with
          | nil =>
              simp only [getItem] at hq
              obtain rfl := Option.some.inj hq
              exact ⟨_, rfl, rfl, fun h => h, fun hpq => List.noConfusion hpq, fun _ => rfl⟩
          | cons t q' => simp [getItem] at hq
      | dir nmr s cs =>
          cases q with
          | nil =>
              simp only [getItem] at hq
              obtain rfl := Option.some.inj hq
              refine ⟨.dir nmr s (modifyNamed seg (updateAt (markDiff dc g0) p') cs),
                rfl, rfl, ?_, fun hpq => List.noConfusion hpq, fun _ => rfl⟩
              intro hall t ht
              have hGpres : ∀ c, (∀ x ∈ flatten c, x.node_settings.diff = true) →
                  ∀ x ∈ flatten (updateAt (markDiff dc g0) p' c),
                    x.node_settings.diff = true := by
                intro c hc
                obtain ⟨n', h1, _, h3, _, _⟩ := ih [] c c rfl
                have hn' : n' = updateAt (markDiff dc g0) p' c := (Option.some.inj h1).symm
                exact hn' ▸ h3 hc
              simp only [flatten, List.mem_cons] at ht ⊢
              rcases ht with rfl | ht
              · exact hall (toRec (.dir nmr s cs)) (by simp [flatten])
              · exact flattenList_modifyNamed_diff _ hGpres seg cs
                  (fun x hx => hall x (by simp [flatten, List.mem_cons, Or.inr hx])) t ht
          | cons t q' =>
              by_cases hts : t = seg
              · subst hts
                cases hf : findNamed t cs with
                | none =>
                    simp only [getItem, hf] at hq
                    exact Option.noConfusion hq
                | some c =>
                    simp only [getItem, hf] at hq
                    obtain ⟨n', h1, h2, h3, h4, h5⟩ := ih q' c n hq
                    refine ⟨n', ?_, h2, h3, ?_, ?_⟩
                    · simp only [updateAt, getItem]
                      rw [findNamed_modifyNamed_self _ (updateAt_markDiff_name dc g0 p') t cs,
                        hf]
                      exact h1
                    · intro hpq
                      exact h4 (List.cons.inj hpq).2
                    · intro hpq
                      exact h5 (fun hh => hpq (by rw [hh]))
              · cases hf : findNamed t cs with
                | none =>
                    simp only [getItem, hf] at hq
                    exact Option.noConfusion hq
                | some c =>
                    simp only [getItem, hf] at hq
                    refine ⟨n, ?_, rfl, fun h => h, ?_, fun _ => rfl⟩
                    · simp only [updateAt, getItem]
                      rw [findNamed_modifyNamed_ne _ (updateAt_markDiff_name dc g0 p')
                        seg t hts, hf]
                      exact hq
                    · intro hpq
                      exact absurd (List.cons.inj hpq).1.symm hts

/-- "The diff overlay has been applied at `f`": the node at `f` exists, its
whole subtree is marked `diff = true`, and if it is a file its notes are the
diff's notes for `f`. -/
def marked (dc : DiffContext) (f : List String) (r : ContextNode) : Prop :=
  ∃ n, getItem f r = some n
    ∧ (∀ t ∈ flatten n, t.node_settings.diff = true)
    ∧ (n.isFile = true → n.notes = dc.get_diff_annotations f)

theorem marked_establish (dc : DiffContext) (f : List String) (r n0 : ContextNode)
    (hn0 : getItem f r = some n0) :
    marked dc f (updateAt (markDiff dc f) f r) := by
  obtain ⟨n', h1, _, _, hpq, _⟩ := updateAt_markDiff_getItem dc f f f r n0 hn0
  have hmk := hpq rfl
  subst hmk
  refine ⟨markDiff dc f n0, h1, ?_, ?_⟩
  · intro t ht
    rw [markDiff_flatten] at ht
    obtain ⟨t0, _, rfl⟩ := List.mem_map.mp ht
    rfl
  · intro hh
    rw [markDiff_isFile] at hh
    exact markDiff_notes_file dc f n0 hh

theorem marked_step (dc : DiffContext) (f g : List String) (r : ContextNode)
    (h : marked dc f r) : marked dc f (updateAt (markDiff dc g) g r) := by
  obtain ⟨n, hn, hd, hnt⟩ := h
  by_cases hgf : g = f
  · subst hgf
    exact marked_establish dc g r n hn
  · obtain ⟨n', h1, hisF, hdp, _, hne⟩ := updateAt_markDiff_getItem dc g g f r n hn
    refine ⟨n', h1, hdp hd, fun hh => ?_⟩
    rw [hne hgf]
    rw [hisF] at hh
    exact hnt hh

theorem go_marked (dc : DiffContext) :
    ∀ (fs : List (List String)) (r r' : ContextNode) (f : List String),
      set_diff_annotations_go dc fs r = .ok r' → marked dc f r → marked dc f r' := by
  intro fs
  induction fs with
  | nil =>
      intro r r' f hgo hm
      simp only [set_diff_annotations_go] at hgo
      obtain rfl := Except.ok.inj hgo
      exact hm
  | cons g gs ih =>
      intro r r' f hgo hm
      cases hg : getItem g r with
      | none =>
          simp only [set_diff_annotations_go, hg] at hgo
          exact Except.noConfusion hgo
      | some c =>
          simp only [set_diff_annotations_go, hg] at hgo
          exact ih _ r' f hgo (marked_step dc f g r hm)

theorem set_diff_annotations_go_ok (dc : DiffContext) :
    ∀ (fs : List (List String)) (r : ContextNode),
      (∀ f ∈ fs, (getItem f r).isSome = true) →
      ∃ r', set_diff_annotations_go dc fs r = .ok r' ∧ ∀ f ∈ fs, marked dc f r' := by
  intro fs
  induction fs with
  | nil =>
      intro r _
      exact ⟨r, rfl, by simp⟩
  | cons f fs ih =>
      intro r h
      have hf : (getItem f r).isSome = true := h f (List.mem_cons_self f fs)
      obtain ⟨n0, hn0⟩ := Option.isSome_iff_exists.mp hf
      have hpres : ∀ g ∈ fs, (getItem g (updateAt (markDiff dc f) f r)).isSome = true := by
        intro g hg
        obtain ⟨ng, hng⟩ := Option.isSome_iff_exists.mp (h g (List.mem_cons_of_mem f hg))
        obtain ⟨n', h1, _⟩ := updateAt_markDiff_getItem dc f f g r ng hng
        simp [h1]
      obtain ⟨r', hgo, hall⟩ := ih (updateAt (markDiff dc f) f r) hpres
      refine ⟨r', ?_, ?_⟩
      · simp only [set_diff_annotations_go, hn0]
        exact hgo
      · intro g hg
        rcases List.mem_cons.mp hg with rfl | hg'
        · exact go_marked dc fs _ r' g hgo (marked_establish dc g r n0 hn0)
        · exact hall g hg'

/-- C6 (amended): `_set_diff_annotations` succeeds when every path of the
diff's file set is present in the tree — each such node is marked
`diff = true` recursively and, if it is a file, receives the diff's per-line
annotations.  But a path *absent* from the tree is **not** created: the bare
`root[file]` lookup fails with `NotFound`, which escapes the call (see
`C6_cex`). -/
theorem C6_diff_annotations (root : ContextNode) (dc : DiffContext)
    (hall : ∀ f ∈ dc.files, (getItem f root).isSome = true) :
    ∃ r', set_diff_annotations root dc = .ok r'
      ∧ ∀ f ∈ dc.files, ∃ n, getItem f r' = some n
          ∧ (∀ t ∈ flatten n, t.node_settings.diff = true)
          ∧ (n.isFile = true → n.notes = dc.get_diff_annotations f) :=
  set_diff_annotations_go_ok dc dc.files root hall

/-- A root with a single tracked file `a.py`. -/
def C6_tree : ContextNode := .dir "root" dflt [.file "a.py" 1 0 0 dflt []]

/-- C6 counterexample: a diff whose file set contains a path absent from the
tree (e.g. a deleted file) makes `_set_diff_annotations` fail with
`NotFound` — the node is not created, contradicting the claim that the call
succeeds on every path of the diff's file set. -/
theorem C6_cex :
    set_diff_annotations C6_tree ⟨[["deleted.py"]], []⟩ = .error ["deleted.py"] := rfl

/-- The diff context used by the C6 witness. -/
def C6_dc : DiffContext := ⟨[["a.py"]], [(["a.py"], [(1, 2, "+ x")])]⟩

/-- C6 witness: the amended theorem applied to `C6_tree` and a diff touching
the present file `a.py`. -/
theorem C6_diff_annotations_witness :
    ∃ r', set_diff_annotations C6_tree C6_dc = .ok r'
      ∧ ∀ f ∈ C6_dc.files, ∃ n, getItem f r' = some n
          ∧ (∀ t ∈ flatten n, t.node_settings.diff = true)
          ∧ (n.isFile = true → n.notes = C6_dc.get_diff_annotations f) :=
  C6_diff_annotations C6_tree C6_dc (by decide)
